import Mathlib

/-!
Verification of the TDT export reconstruction engine (`tdta/tdt_export.py`).

The Python code is shallowly embedded:

* a database cell is `Option String` (sqlite NULL or text),
* a Python value (results of `json.loads` / `ast.literal_eval`, attribute
  contents) is the inductive `Value`,
* a target object (`CellTypeAnnotation`, `Annotation`, `Labelset`,
  `AutomatedAnnotation`, `AnnotationTransfer` instances) is an association
  list `Entity` from attribute name to `Value`; `getattr`/`setattr`/`hasattr`
  model the dynamic attribute operations,
* fallible code returns `Except`/`Option`; `auto_fill_object_from_row`
  returns `Except Entity Entity`, the error payload being the state of the
  mutated object at the moment the Python exception is raised,
* `json.loads` and `ast.literal_eval` are modelled by executable recursive
  descent parsers (`jsonLoads`, `literalEval`) over the JSON grammar and the
  Python literal grammar restricted to strings, numbers, booleans, `None`,
  lists and (string-keyed) dicts.
-/

set_option autoImplicit false

namespace TDT

/-- A Python/JSON value as it can appear in an object attribute: the result
of `json.loads`, of `ast.literal_eval`, or a raw string from the database.
Non-integer numbers are kept as their raw lexeme (`vfloat`), which is enough
for this code base: the engine never computes with numbers. -/
inductive Value where
  | vnull : Value
  | vbool : Bool → Value
  | vint : Int → Value
  | vfloat : String → Value
  | vstr : String → Value
  | vlist : List Value → Value
  | vobj : List (String × Value) → Value

/-- A Python object, as a finite map from attribute name to value.  The list
order is attribute insertion order, as in CPython `__dict__`. -/
abbrev Entity := List (String × Value)

/-- One sqlite cell: `NULL` or text. -/
abbrev Cell := Option String

/-- One database row, positionally aligned with the column list. -/
abbrev Row := List Cell

/-- Python `getattr`: value of the attribute, if declared. -/
def getattr : Entity → String → Option Value
  | [], _ => none
  | (k, v) :: es, a => if k = a then some v else getattr es a

/-- Python `hasattr`. -/
def hasattr (e : Entity) (a : String) : Bool :=
  (getattr e a).isSome

/-- The attribute-name set (in insertion order), i.e. `vars(obj).keys()`. -/
def keys (e : Entity) : List String :=
  e.map Prod.fst

/-- Overwrite the value of an existing attribute, keeping its position. -/
def updateAttr : Entity → String → Value → Entity
  | [], _, _ => []
  | (k, w) :: es, a, v =>
    if k = a then (a, v) :: updateAttr es a v else (k, w) :: updateAttr es a v

/-- Python `setattr`: overwrite a declared attribute, or create a fresh one
(appended last, as CPython inserts into `__dict__`). -/
def setattr (e : Entity) (a : String) (v : Value) : Entity :=
  if hasattr e a then updateAttr e a v else e ++ [(a, v)]

theorem getattr_updateAttr_self (e : Entity) (a : String) (v : Value) :
    getattr (updateAttr e a v) a = if hasattr e a then some v else none := by
  induction e with
  | nil => simp [updateAttr, getattr, hasattr]
  | cons p es ih =>
    obtain ⟨k, w⟩ := p
    by_cases h : k = a
    · simp [updateAttr, h, getattr, hasattr]
    · simp only [updateAttr, h, if_false, getattr, if_neg h, hasattr] at *
      exact ih

theorem getattr_updateAttr_ne (e : Entity) (a b : String) (v : Value) (h : b ≠ a) :
    getattr (updateAttr e a v) b = getattr e b := by
  induction e with
  | nil => simp [updateAttr]
  | cons p es ih =>
    obtain ⟨k, w⟩ := p
    by_cases hk : k = a
    · subst hk
      simp [updateAttr, getattr, Ne.symm h, ih]
    · simp [updateAttr, hk, getattr, ih]

theorem getattr_append_single_ne (e : Entity) (a b : String) (v : Value) (h : b ≠ a) :
    getattr (e ++ [(a, v)]) b = getattr e b := by
  induction e with
  | nil => simp [getattr, Ne.symm h]
  | cons p es ih =>
    obtain ⟨k, w⟩ := p
    by_cases hk : k = b
    · simp [getattr, hk]
    · simp [getattr, hk, ih]

theorem getattr_append_single_self (e : Entity) (a : String) (v : Value)
    (h : getattr e a = none) :
    getattr (e ++ [(a, v)]) a = some v := by
  induction e with
  | nil => simp [getattr]
  | cons p es ih =>
    obtain ⟨k, w⟩ := p
    by_cases hk : k = a
    · simp [getattr, hk] at h
    · simp [getattr, hk] at h ⊢
      exact ih h

theorem getattr_setattr_self (e : Entity) (a : String) (v : Value) :
    getattr (setattr e a v) a = some v := by
  unfold setattr
  by_cases h : hasattr e a
  · simp [h, getattr_updateAttr_self]
  · have h' : getattr e a = none := by
      unfold hasattr at h
      cases hh : getattr e a with
      | none => rfl
      | some w => simp [hh] at h
    simp [h, getattr_append_single_self e a v h']

theorem getattr_setattr_ne (e : Entity) (a b : String) (v : Value) (h : b ≠ a) :
    getattr (setattr e a v) b = getattr e b := by
  unfold setattr
  by_cases hh : hasattr e a
  · simp [hh, getattr_updateAttr_ne e a b v h]
  · simp [hh, getattr_append_single_ne e a b v h]

theorem keys_updateAttr (e : Entity) (a : String) (v : Value) :
    keys (updateAttr e a v) = keys e := by
  induction e with
  | nil => simp [updateAttr]
  | cons p es ih =>
    obtain ⟨k, w⟩ := p
    by_cases hk : k = a
    · simp [updateAttr, hk, keys] at *
      exact ih
    · simp [updateAttr, hk, keys] at *
      exact ih

theorem keys_setattr_of_hasattr (e : Entity) (a : String) (v : Value)
    (h : hasattr e a = true) :
    keys (setattr e a v) = keys e := by
  simp [setattr, h, keys_updateAttr]

theorem hasattr_iff_mem_keys (e : Entity) (a : String) :
    hasattr e a = true ↔ a ∈ keys e := by
  induction e with
  | nil => simp [hasattr, getattr, keys]
  | cons p es ih =>
    obtain ⟨k, w⟩ := p
    by_cases hk : k = a
    · simp [hasattr, getattr, hk, keys]
    · simp [hasattr, getattr, hk, keys, Ne.symm hk] at *
      exact ih

theorem hasattr_eq_of_keys_eq (e e' : Entity) (a : String)
    (h : keys e' = keys e) : hasattr e' a = hasattr e a := by
  have hiff : hasattr e' a = true ↔ hasattr e a = true := by
    rw [hasattr_iff_mem_keys, hasattr_iff_mem_keys, h]
  cases hh : hasattr e a
  · cases hh' : hasattr e' a
    · rfl
    · rw [hh] at hiff
      exact (hiff.mp hh').symm
  · exact hiff.mpr hh

/-- The opening-brace character. -/
def obrace : Char := Char.ofNat 123

/-- The closing-brace character. -/
def cbrace : Char := Char.ofNat 125

/-- Skip JSON/Python whitespace. -/
def skipWs : List Char → List Char
  | [] => []
  | c :: cs => if c = ' ' || c = '\t' || c = '\n' || c = '\r' then skipWs cs else c :: cs

/-- Decode a backslash escape (shared by the JSON and Python string lexers;
the single-quote escape is accepted in both, a harmless superset for JSON). -/
def escChar : Char → Option Char
  | '"' => some '"'
  | '\\' => some '\\'
  | '/' => some '/'
  | 'b' => some (Char.ofNat 8)
  | 'f' => some (Char.ofNat 12)
  | 'n' => some '\n'
  | 't' => some '\t'
  | 'r' => some '\r'
  | c => if c = Char.ofNat 39 then some (Char.ofNat 39) else none

/-- Hexadecimal digit value. -/
def hexVal (c : Char) : Option Nat :=
  if c.isDigit then some (c.toNat - 48)
  else if 'a' ≤ c ∧ c ≤ 'f' then some (c.toNat - 87)
  else if 'A' ≤ c ∧ c ≤ 'F' then some (c.toNat - 55)
  else none

/-- Lex a quoted string body after the opening quote `q`, accumulator‑style. -/
def parseStr (q : Char) : Nat → List Char → List Char → Option (String × List Char)
  | 0, _, _ => none
  | _ + 1, _, [] => none
  | fuel + 1, acc, c :: rest =>
    if c = q then some (String.mk acc.reverse, rest)
    else if c = '\\' then
      match rest with
      | [] => none
      | e :: rest2 =>
        if e = 'u' then
          match rest2 with
          | a :: b :: c2 :: d :: rest3 =>
            match hexVal a, hexVal b, hexVal c2, hexVal d with
            | some ha, some hb, some hc, some hd =>
              parseStr q fuel (Char.ofNat (((ha * 16 + hb) * 16 + hc) * 16 + hd) :: acc) rest3
            | _, _, _, _ => none
          | _ => none
        else
          match escChar e with
          | some ch => parseStr q fuel (ch :: acc) rest2
          | none => none
    else parseStr q fuel (c :: acc) rest

/-- Longest run of decimal digits. -/
def takeDigits : List Char → List Char × List Char
  | [] => ([], [])
  | c :: cs =>
    if c.isDigit then
      let p := takeDigits cs
      (c :: p.1, p.2)
    else ([], c :: cs)

/-- Decimal digits to a natural number. -/
def digitsToNat (ds : List Char) : Nat :=
  ds.foldl (fun a c => a * 10 + (c.toNat - 48)) 0

/-- Lex an exponent part (after the `e`), keeping the float lexeme raw. -/
def parseExp (mant : List Char) (cs : List Char) : Option (Value × List Char) :=
  let p : List Char × List Char :=
    match cs with
    | '-' :: r => ([Char.ofNat 45], r)
    | '+' :: r => (['+'], r)
    | _ => ([], cs)
  let d := takeDigits p.2
  if d.1.isEmpty then none
  else some (.vfloat (String.mk (mant ++ 'e' :: (p.1 ++ d.1))), d.2)

/-- Lex an unsigned number: an integer, or a float kept as its raw lexeme. -/
def parseNumCore (cs : List Char) : Option (Value × List Char) :=
  let d := takeDigits cs
  if d.1.isEmpty then none
  else
    match d.2 with
    | '.' :: r2 =>
      let f := takeDigits r2
      if f.1.isEmpty then none
      else
        match f.2 with
        | e :: r4 =>
          if e = 'e' || e = 'E' then parseExp (d.1 ++ '.' :: f.1) r4
          else some (.vfloat (String.mk (d.1 ++ '.' :: f.1)), f.2)
        | [] => some (.vfloat (String.mk (d.1 ++ '.' :: f.1)), [])
    | e :: r2 =>
      if e = 'e' || e = 'E' then parseExp d.1 r2
      else some (.vint (digitsToNat d.1), d.2)
    | [] => some (.vint (digitsToNat d.1), [])

/-- Negate a parsed number. -/
def negVal : Value → Value
  | .vint n => .vint (-n)
  | .vfloat s => .vfloat (String.mk (Char.ofNat 45 :: s.data))
  | v => v

/-- Dialect of the literal grammar: JSON (`json.loads`) or Python literals
(`ast.literal_eval`). -/
structure LitCfg where
  quotes : List Char
  kws : List (String × Value)
  allowTrailingComma : Bool
  allowPlusSign : Bool

/-- Lex a signed number. -/
def parseNum (cfg : LitCfg) (cs : List Char) : Option (Value × List Char) :=
  match cs with
  | '-' :: r => (parseNumCore r).map (fun p => (negVal p.1, p.2))
  | '+' :: r => if cfg.allowPlusSign then parseNumCore r else none
  | _ => parseNumCore cs

/-- Match a literal keyword (`true`/`None`/...). -/
def matchKw : List (String × Value) → List Char → Option (Value × List Char)
  | [], _ => none
  | (w, v) :: rest, cs =>
    if w.data.isPrefixOf cs then some (v, cs.drop w.data.length) else matchKw rest cs

/-- Insert a key into an object, overwriting a duplicate key in place (the
`dict` semantics of `json.loads` and of Python dict displays). -/
def insertKV : List (String × Value) → String → Value → List (String × Value)
  | [], k, v => [(k, v)]
  | (k', v') :: rest, k, v =>
    if k' = k then (k, v) :: rest else (k', v') :: insertKV rest k v

/-- What the literal parser is currently parsing: a value, the element loop
of a list, or the member loop of an object. -/
inductive PReq where
  | pval : PReq
  | plist : Bool → List Value → PReq
  | pobj : Bool → List (String × Value) → PReq

/-- One fuel-indexed step of the recursive descent parser for the configured
literal grammar; `.pval` parses one value. -/
def parseStep : Nat → LitCfg → PReq → List Char → Option (Value × List Char)
  | 0, _, _, _ => none
  | fuel + 1, cfg, .pval, cs =>
    match skipWs cs with
    | [] => none
    | c :: rest =>
      if cfg.quotes.contains c then
        (parseStr c (rest.length + 1) [] rest).map (fun p => (.vstr p.1, p.2))
      else if c = '[' then parseStep fuel cfg (.plist true []) rest
      else if c = obrace then parseStep fuel cfg (.pobj true []) rest
      else
        match matchKw cfg.kws (c :: rest) with
        | some p => some p
        | none => parseNum cfg (c :: rest)
  | fuel + 1, cfg, .plist canClose acc, cs =>
    match skipWs cs with
    | [] => none
    | c :: rest =>
      if c = ']' then
        if canClose then some (.vlist acc.reverse, rest) else none
      else
        match parseStep fuel cfg .pval (c :: rest) with
        | none => none
        | some (v, r) =>
          match skipWs r with
          | ',' :: r2 => parseStep fuel cfg (.plist cfg.allowTrailingComma (v :: acc)) r2
          | ']' :: r2 => some (.vlist (v :: acc).reverse, r2)
          | _ => none
  | fuel + 1, cfg, .pobj canClose acc, cs =>
    match skipWs cs with
    | [] => none
    | c :: rest =>
      if c = cbrace then
        if canClose then some (.vobj acc, rest) else none
      else if cfg.quotes.contains c then
        match parseStr c (rest.length + 1) [] rest with
        | none => none
        | some (k, r) =>
          match skipWs r with
          | ':' :: r2 =>
            match parseStep fuel cfg .pval r2 with
            | none => none
            | some (v, r3) =>
              match skipWs r3 with
              | ',' :: r4 =>
                parseStep fuel cfg (.pobj cfg.allowTrailingComma (insertKV acc k v)) r4
              | c2 :: r4 =>
                if c2 = cbrace then some (.vobj (insertKV acc k v), r4) else none
              | [] => none
          | _ => none
      else none

/-- Parse one value of the configured literal grammar. -/
def parseVal (fuel : Nat) (cfg : LitCfg) (cs : List Char) :
    Option (Value × List Char) :=
  parseStep fuel cfg .pval cs

/-- The JSON grammar, as accepted by `json.loads`. -/
def jsonCfg : LitCfg := ⟨['"'],
  [("true", .vbool true), ("false", .vbool false), ("null", .vnull)], false, false⟩

/-- The Python literal grammar, as accepted by `ast.literal_eval` (restricted
to strings, numbers, booleans, `None`, lists and string-keyed dicts; tuples
and sets are not modelled and are rejected). -/
def pyCfg : LitCfg := ⟨[Char.ofNat 39, '"'],
  [("True", .vbool true), ("False", .vbool false), ("None", .vnull)], true, true⟩

/-- Run a literal parser on a whole string, requiring all input consumed. -/
def parseTop (cfg : LitCfg) (s : String) : Option Value :=
  match parseVal (4 * s.data.length + 8) cfg s.data with
  | some (v, r) => if (skipWs r).isEmpty then some v else none
  | none => none

/-- Model of `json.loads`: `none` when Python raises `JSONDecodeError`. -/
def jsonLoads (s : String) : Option Value :=
  parseTop jsonCfg s

/-- Model of `ast.literal_eval`: `none` when Python raises. -/
def literalEval (s : String) : Option Value :=
  parseTop pyCfg s

/-- Python `str.startswith`. -/
def strStartsWith (s pre : String) : Bool :=
  pre.data.isPrefixOf s.data

/-- Python `str.endswith`. -/
def strEndsWith (s suf : String) : Bool :=
  suf.data.isSuffixOf s.data

/-- Replace every (non-overlapping, leftmost-first) occurrence of `pat`,
fuel-indexed over the text. -/
def replChars (pat repl : List Char) : Nat → List Char → List Char
  | _, [] => []
  | 0, l => l
  | fuel + 1, c :: cs =>
    if !pat.isEmpty && pat.isPrefixOf (c :: cs) then
      repl ++ replChars pat repl fuel ((c :: cs).drop pat.length)
    else c :: replChars pat repl fuel cs

/-- Python `str.replace`. -/
def pyReplace (s pat repl : String) : String :=
  String.mk (replChars pat.data repl.data s.data.length s.data)

/-- Python `list.index` for the (always-found in well-formed calls) column
lookup: index of the first occurrence, list length when absent. -/
def pyIndex (l : List String) (x : String) : Nat :=
  l.findIdx (· = x)

/-- `row[columns.index(c)]`, the cell the code reads for column `c`.  Reads
off the end of the row yield `NULL` instead of Python's `IndexError`; the
theorems below are stated for positionally aligned rows, which is what the
sqlite cursor guarantees. -/
def cellAt (columns : List String) (row : Row) (c : String) : Cell :=
  row.getD (pyIndex columns c) none

/-- Python truthiness of a cell: `NULL` and the empty string are falsy. -/
def cellTruthy : Cell → Bool
  | none => false
  | some s => !(s = "")

/-- Python `str()` of a cell (`str(None)` is the string `"None"`). -/
def pyStr : Cell → String
  | none => "None"
  | some s => s

/-!
### The Row Mapper: `auto_fill_object_from_row`

The Python loop body is, for each `column` of `columns`:

* if `hasattr(obj, column)` and the positional cell is truthy, assign it
  (after `ast.literal_eval` for bracketed strings — which can raise);
* then (inside the same loop body, i.e. once per column) if a `message`
  column is present and truthy, `json.loads` it (which can raise) and
  re-apply every override record whose `column` key is in the column list.

`Except Entity Entity` returns `.ok` with the filled object, or `.error`
with the state of the object at the moment the Python exception is raised.
-/

/-- One positional assignment, `auto_fill_object_from_row` lines 166–171. -/
def positionalStep (columns : List String) (row : Row) (obj : Entity)
    (column : String) : Except Entity Entity :=
  if hasattr obj column then
    match cellAt columns row column with
    | none => .ok obj
    | some s =>
      if s = "" then .ok obj
      else if strStartsWith s "[" && strEndsWith s "]" then
        match literalEval s with
        | none => .error obj
        | some v => .ok (setattr obj column v)
      else .ok (setattr obj column (.vstr s))
  else .ok obj

/-- Apply one decoded override record `msg` (lines 175–177): `none` models a
raised exception (`msg` not a dict, or a missing `column`/`value` key); a
record whose `column` is not a string in the column list is skipped. -/
def applyOverride (columns : List String) (obj : Entity) (msg : Value) :
    Option Entity :=
  match msg with
  | .vobj kvs =>
    match getattr kvs "column" with
    | none => none
    | some (.vstr c) =>
      if c ∈ columns then
        match getattr kvs "value" with
        | none => none
        | some v => some (setattr obj c v)
      else some obj
    | some _ => some obj
  | _ => none

/-- Apply the override records in order, stopping at the first raise. -/
def applyOverrides (columns : List String) : Entity → List Value → Except Entity Entity
  | obj, [] => .ok obj
  | obj, m :: ms =>
    match applyOverride columns obj m with
    | none => .error obj
    | some obj' => applyOverrides columns obj' ms

/-- The per-iteration message block (lines 172–177). -/
def messageStep (columns : List String) (row : Row) (obj : Entity) :
    Except Entity Entity :=
  if "message" ∈ columns then
    match cellAt columns row "message" with
    | none => .ok obj
    | some m =>
      if m = "" then .ok obj
      else
        match jsonLoads m with
        | none => .error obj
        | some (.vlist msgs) => applyOverrides columns obj msgs
        | some _ => .error obj
  else .ok obj

/-- One iteration of the `for column in columns` loop. -/
def fillStep (columns : List String) (row : Row) (obj : Entity)
    (column : String) : Except Entity Entity :=
  match positionalStep columns row obj column with
  | .error e => .error e
  | .ok o => messageStep columns row o

/-- The `for column in columns` loop, over the remaining columns. -/
def autoFillLoop (columns : List String) (row : Row) :
    Entity → List String → Except Entity Entity
  | obj, [] => .ok obj
  | obj, c :: cs =>
    match fillStep columns row obj c with
    | .error e => .error e
    | .ok o => autoFillLoop columns row o cs

/-- `auto_fill_object_from_row(obj, columns, row)`. -/
def auto_fill_object_from_row (obj : Entity) (columns : List String)
    (row : Row) : Except Entity Entity :=
  autoFillLoop columns row obj columns

/-- The object state carried by either result. -/
def extractOk : Except Entity Entity → Entity
  | .ok o => o
  | .error o => o

/-- Whether the call returned without raising. -/
def exceptIsOk : Except Entity Entity → Bool
  | .ok _ => true
  | .error _ => false

/-!
### Section parsers and the classifier

The sqlite plumbing (connection, cursor, `SELECT * FROM t_view`) is
modelled by handing each parser the queried view as data: its column list
and its row list, in cursor order.  A `none` result models a raised
exception.
-/

/-- A queried view: the cursor's column names and fetched rows. -/
structure TableView where
  columns : List String
  rows : List Row

/-- Modelled from the spec: the external `ctat` package's `Annotation("", "")`
instance.  The spec (§3) names `cell_set_accession`, a label, the extension
collection and the transfer sequence as its fields; the package's exact field
roster is external to this repository. -/
def annotation0 : Entity :=
  [("labelset", .vstr ""), ("cell_label", .vstr ""),
   ("cell_set_accession", .vstr ""), ("user_annotations", .vnull),
   ("transferred_annotations", .vnull)]

/-- Modelled from the spec: the external `Labelset("", "")` instance (§3: a
named grouping with an optional nested automated-annotation sub-record). -/
def labelset0 : Entity :=
  [("name", .vstr ""), ("description", .vstr ""), ("automated_annotation", .vnull)]

/-- Modelled from the spec: the external `AutomatedAnnotation("", "", "", "")`
instance (§3: algorithm name, version, and related fields). -/
def automated_annotation0 : Entity :=
  [("algorithm_name", .vstr ""), ("algorithm_version", .vstr ""),
   ("algorithm_repo_url", .vstr ""), ("reference_location", .vstr "")]

/-- Modelled from the spec: the external `AnnotationTransfer("", "", "", "", "")`
instance (§3: provenance of one annotation's label); the five field names are
not enumerated by the spec. -/
def annotation_transfer0 : Entity :=
  [("transferred_cell_label", .vstr ""), ("source_taxonomy", .vstr ""),
   ("source_node_accession", .vstr ""), ("algorithm_name", .vstr ""),
   ("comment", .vstr "")]

/-- Modelled from the spec: a `UserAnnotation(column, value)` record of the
external package, kept as its two constructor arguments. -/
def encodeUA (p : String × String) : Value :=
  .vobj [("column", .vstr p.1), ("value", .vstr p.2)]

/-- The `user_annotations` list assigned onto the annotation. -/
def encodeUAs (uas : List (String × String)) : Value :=
  .vlist (uas.map encodeUA)

/-- The extension columns captured as `UserAnnotation` pairs
(`parse_annotation_data` lines 75–79): every column that is not an attribute
of the filled annotation and is not `row_number`/`message`, paired with
`str()` of its cell. -/
def userAnnotationsFor (ann : Entity) (columns : List String) (row : Row) :
    List (String × String) :=
  (columns.filter
      (fun c => !hasattr ann c && !(c = "row_number") && !(c = "message"))).map
    (fun c => (c, pyStr (cellAt columns row c)))

/-- One iteration of the `parse_annotation_data` row loop (lines 72–80). -/
def parse_annotation_row (ann0 : Entity) (columns : List String) (row : Row) :
    Option Entity :=
  match auto_fill_object_from_row ann0 columns row with
  | .error _ => none
  | .ok ann =>
    some (setattr ann "user_annotations" (encodeUAs (userAnnotationsFor ann columns row)))

/-- The renamed column view of `parse_labelset_data` line 102: every
occurrence of `automated_annotation_` removed from each column name. -/
def renamedColumns (columns : List String) : List String :=
  columns.map (fun c => pyReplace c "automated_annotation_" "")

/-- One iteration of the `parse_labelset_data` row loop (lines 103–111).
`none` models a raised exception — including the `ValueError` from
`renamed_columns.index("algorithm_name")` when that column is absent. -/
def parse_labelset_row (ls0 aa0 : Entity) (columns : List String) (row : Row) :
    Option Entity :=
  let renamed := renamedColumns columns
  match auto_fill_object_from_row ls0 columns row with
  | .error _ => none
  | .ok ls =>
    if "algorithm_name" ∈ renamed then
      if cellTruthy (cellAt renamed row "algorithm_name") then
        match auto_fill_object_from_row aa0 renamed row with
        | .error _ => none
        | .ok aa => some (setattr ls "automated_annotation" (.vobj aa))
      else some ls
    else none

/-- `a.cell_set_accession == row[...]` of line 130: Python `==` between the
stored attribute value and the cell's string (`False` on type mismatch; a
malformed annotation without the attribute is treated as a mismatch). -/
def accessionMatches (a : Entity) (target : String) : Bool :=
  match getattr a "cell_set_accession" with
  | some (.vstr s) => s = target
  | _ => false

/-- The transferred-annotation sequence of an annotation, as a list (`[]`
for `None`, a missing attribute, or a non-list value). -/
def transferList (a : Entity) : List Value :=
  match getattr a "transferred_annotations" with
  | some (.vlist ts) => ts
  | _ => []

/-- Lines 134–137: append to a truthy transfer list, else start a fresh
one-element list.  (A truthy non-list value, on which Python would raise, is
replaced; no annotation built by this engine ever holds one.) -/
def appendTransfer (a : Entity) (tr : Entity) : Entity :=
  match getattr a "transferred_annotations" with
  | some (.vlist ts) =>
    if ts.isEmpty then setattr a "transferred_annotations" (.vlist [.vobj tr])
    else setattr a "transferred_annotations" (.vlist (ts ++ [.vobj tr]))
  | _ => setattr a "transferred_annotations" (.vlist [.vobj tr])

/-- Mutate the first accession-matching annotation of the list. -/
def updateFirstMatch : List Entity → String → Entity → List Entity
  | [], _, _ => []
  | a :: as_, target, tr =>
    if accessionMatches a target then appendTransfer a tr :: as_
    else a :: updateFirstMatch as_ target tr

/-- One iteration of the `parse__annotation_transfer_data` row loop
(lines 127–137), threading the document's annotation list. -/
def parse_annotation_transfer_row (tr0 : Entity) (anns : List Entity)
    (columns : List String) (row : Row) : Option (List Entity) :=
  if "target_node_accession" ∈ columns then
    match cellAt columns row "target_node_accession" with
    | none => some anns
    | some t =>
      if t = "" then some anns
      else if anns.any (fun a => accessionMatches a t) then
        match auto_fill_object_from_row tr0 columns row with
        | .error _ => none
        | .ok tr => some (updateFirstMatch anns t tr)
      else some anns
  else some anns

/-- The recognized table-name endings (`cas_table_postfixes`, line 10). -/
def cas_table_suffixes : List String :=
  ["_annotation", "_labelset", "_metadata", "_annotation_transfer"]

/-- `str.endswith(tuple(...))`. -/
def endsWithAny (s : String) (suffixes : List String) : Bool :=
  suffixes.any (fun suf => strEndsWith s suf)

/-- `get_table_names` (lines 140–155) applied to the fetched catalog view:
`none` models the `ValueError` of `columns.index('table')` when the catalog
has no `table` column. -/
def get_table_names (catalog : TableView) : Option (List String) :=
  if "table" ∈ catalog.columns then
    some (catalog.rows.foldl
      (fun acc row =>
        if endsWithAny (pyStr (row.getD (pyIndex catalog.columns "table") none))
            cas_table_suffixes then
          acc ++ [pyStr (row.getD (pyIndex catalog.columns "table") none)]
        else acc)
      [])
  else none

/-!
### The document and the orchestrator
-/

/-- The in-memory document: the root object's plain attributes, and its two
entity sequences.  (In Python the sequences are attributes of the same
object; keeping them apart assumes no metadata column is literally named
`annotations` or `labelsets`, which holds for the CAS table family.) -/
structure CellTypeAnnotation where
  fields : Entity
  annotations : List Entity
  labelsets : List Entity

/-- Modelled from the spec: the external `CellTypeAnnotation("", list())`
root with free-form metadata attributes (not enumerated by the spec). -/
def cta0 : CellTypeAnnotation :=
  ⟨[("author_name", .vstr ""), ("title", .vstr "")], [], []⟩

/-- `parse_metadata_data` (lines 37–52): map the first row, if any, onto the
root object's attributes. -/
def parse_metadata_data (cta : CellTypeAnnotation) (tv : TableView) :
    Option CellTypeAnnotation :=
  match tv.rows with
  | [] => some cta
  | r :: _ =>
    match auto_fill_object_from_row cta.fields tv.columns r with
    | .error _ => none
    | .ok f => some ⟨f, cta.annotations, cta.labelsets⟩

/-- `parse_annotation_data` (lines 55–83) at the table level. -/
def parse_annotation_data (cta : CellTypeAnnotation) (tv : TableView) :
    Option CellTypeAnnotation :=
  match tv.rows with
  | [] => some cta
  | _ =>
    (tv.rows.foldlM
        (fun anns row => (parse_annotation_row annotation0 tv.columns row).map
          (fun a => anns ++ [a]))
        cta.annotations).map
      (fun anns => ⟨cta.fields, anns, cta.labelsets⟩)

/-- `parse_labelset_data` (lines 86–112) at the table level. -/
def parse_labelset_data (cta : CellTypeAnnotation) (tv : TableView) :
    Option CellTypeAnnotation :=
  match tv.rows with
  | [] => some cta
  | _ =>
    (tv.rows.foldlM
        (fun lss row => (parse_labelset_row labelset0 automated_annotation0 tv.columns row).map
          (fun ls => lss ++ [ls]))
        cta.labelsets).map
      (fun lss => ⟨cta.fields, cta.annotations, lss⟩)

/-- `parse__annotation_transfer_data` (lines 115–137) at the table level. -/
def parse__annotation_transfer_data (cta : CellTypeAnnotation) (tv : TableView) :
    Option CellTypeAnnotation :=
  (tv.rows.foldlM
      (fun anns row => parse_annotation_transfer_row annotation_transfer0 anns tv.columns row)
      cta.annotations).map
    (fun anns => ⟨cta.fields, anns, cta.labelsets⟩)

/-- The database as the engine sees it: the queryable views by name
(including the catalog `table_view`).  A missing view makes the query raise,
modelled as `none`. -/
structure Database where
  views : List (String × TableView)

/-- Look up the view a parser would query. -/
def lookupView (db : Database) (name : String) : Option TableView :=
  match db.views.find? (fun p => p.1 = name) with
  | some p => some p.2
  | none => none

/-- The dispatch arm of `export_cas_data` (lines 22–30). -/
def dispatch_table (db : Database) (cta : CellTypeAnnotation)
    (table_name : String) : Option CellTypeAnnotation :=
  if strEndsWith table_name "_metadata" then
    (lookupView db (table_name ++ "_view")).bind (parse_metadata_data cta)
  else if strEndsWith table_name "_annotation" then
    (lookupView db (table_name ++ "_view")).bind (parse_annotation_data cta)
  else if strEndsWith table_name "_labelset" then
    (lookupView db (table_name ++ "_view")).bind (parse_labelset_data cta)
  else if strEndsWith table_name "_annotation_transfer" then
    (lookupView db (table_name ++ "_view")).bind (parse__annotation_transfer_data cta)
  else some cta

/-- `export_cas_data` (lines 13–34): classify the catalog, dispatch each
table to its parser, and return the assembled document (serialization is the
external collaborator and out of scope). -/
def export_cas_data (db : Database) : Option CellTypeAnnotation :=
  (lookupView db "table_view").bind fun catalog =>
  (get_table_names catalog).bind fun cas_tables =>
  cas_tables.foldlM (fun cta t => dispatch_table db cta t) cta0

/-!
### Lemmas about the message block
-/

theorem messageStep_raise (columns : List String) (row : Row) (m : String)
    (hmem : "message" ∈ columns)
    (hcell : cellAt columns row "message" = some m)
    (hne : m ≠ "")
    (hbad : jsonLoads m = none) (o : Entity) :
    messageStep columns row o = .error o := by
  simp [messageStep, hmem, hcell, hne, hbad]

theorem messageStep_inactive (columns : List String) (row : Row)
    (hmsg : "message" ∉ columns ∨ cellTruthy (cellAt columns row "message") = false)
    (o : Entity) :
    messageStep columns row o = .ok o := by
  unfold messageStep
  rcases hmsg with h | h
  · rw [if_neg h]
  · by_cases hm : "message" ∈ columns
    · rw [if_pos hm]
      cases hc : cellAt columns row "message" with
      | none => rfl
      | some m =>
        rw [hc] at h
        have hme : m = "" := by
          simpa [cellTruthy] using h
        simp [hme]
    · rw [if_neg hm]

/-!
### Claim C8
-/

/-- Claim C8: for every object, column list and row whose `message` column is
non-empty but does not decode as JSON, the Row Mapper raises (the `.error`
result), and zero override records are applied — the state at the raise is
exactly the result of the first column's positional step, which performs no
override. -/
theorem malformed_message_fatal (obj : Entity) (columns : List String) (row : Row)
    (m : String)
    (hmem : "message" ∈ columns)
    (hcell : cellAt columns row "message" = some m)
    (hne : m ≠ "")
    (hbad : jsonLoads m = none) :
    auto_fill_object_from_row obj columns row =
      .error (extractOk (positionalStep columns row obj (columns.headD ""))) := by
  cases columns with
  | nil => cases hmem
  | cons c cs =>
    have hmsg : ∀ o : Entity, messageStep (c :: cs) row o = .error o :=
      messageStep_raise (c :: cs) row m hmem hcell hne hbad
    cases hp : positionalStep (c :: cs) row obj c with
    | error e =>
      simp [auto_fill_object_from_row, autoFillLoop, fillStep, hp, extractOk]
    | ok o =>
      simp [auto_fill_object_from_row, autoFillLoop, fillStep, hp, hmsg, extractOk]

def c8Obj : Entity := [("cell_label", .vstr "")]

theorem malformed_message_fatal_witness :
    auto_fill_object_from_row c8Obj ["cell_label", "message"]
        [some "Neuron", some "[not json"] =
      .error (extractOk (positionalStep ["cell_label", "message"]
        [some "Neuron", some "[not json"] c8Obj
        ((["cell_label", "message"] : List String).headD ""))) :=
  malformed_message_fatal c8Obj ["cell_label", "message"]
    [some "Neuron", some "[not json"] "[not json" (by decide) rfl (by decide) rfl

/-!
### Claim C10
-/

def c10Obj : Entity := [("f", .vstr "")]

/-- Claim C10: a bracketed cell value that is not a valid literal sequence
makes the Row Mapper raise (the `.error` result) instead of assigning the
raw string: the error state still holds the field's prior default. -/
theorem bracketed_literal_error_no_fallback :
    auto_fill_object_from_row c10Obj ["f"] [some "[not, valid]"] = .error c10Obj ∧
    getattr c10Obj "f" = some (.vstr "") := ⟨rfl, rfl⟩

/-!
### Claim C7
-/

theorem foldl_append_filter (f : Row → String) (p : String → Bool) :
    ∀ (rows : List Row) (acc : List String),
      rows.foldl (fun a r => if p (f r) then a ++ [f r] else a) acc =
        acc ++ (rows.map f).filter p := by
  intro rows
  induction rows with
  | nil => intro acc; simp
  | cons r rs ih =>
    intro acc
    by_cases h : p (f r)
    · simp [List.foldl_cons, h, ih]
    · simp [List.foldl_cons, h, ih]

/-- Claim C7: with a `table` column present, the Table Classifier returns
exactly the catalog's enumerated names that end in one of the four
recognized suffixes — a filter of the catalog projection, hence in catalog
order and without deduplication. -/
theorem table_names_filter_order (columns : List String) (rows : List Row)
    (hmem : "table" ∈ columns) :
    get_table_names ⟨columns, rows⟩ =
      some ((rows.map (fun r => pyStr (r.getD (pyIndex columns "table") none))).filter
        (fun n => endsWithAny n cas_table_suffixes)) := by
  have h := foldl_append_filter
    (fun r => pyStr (r.getD (pyIndex columns "table") none))
    (fun n => endsWithAny n cas_table_suffixes) rows []
  simp only [List.nil_append] at h
  simp only [get_table_names, hmem, if_pos]
  exact congrArg some h

theorem table_names_filter_order_witness :
    get_table_names ⟨["table"],
        [[some "x_annotation"], [some "y_meta"], [some "x_annotation"]]⟩ =
      some ["x_annotation", "x_annotation"] :=
  (table_names_filter_order ["table"]
    [[some "x_annotation"], [some "y_meta"], [some "x_annotation"]] (by decide)).trans rfl

/-!
### Claim C9
-/

/-- Claim C9: the reconstruction is a pure function of the database snapshot,
so two runs over the same fixed catalog, views and row order yield
field-for-field equal documents (metadata fields, annotation sequence,
labelset sequence). -/
theorem export_deterministic (db : Database) (d1 d2 : CellTypeAnnotation)
    (h1 : export_cas_data db = some d1) (h2 : export_cas_data db = some d2) :
    d1.fields = d2.fields ∧ d1.annotations = d2.annotations ∧
      d1.labelsets = d2.labelsets := by
  rw [h1] at h2
  have h := Option.some.inj h2
  subst h
  exact ⟨rfl, rfl, rfl⟩

def c9Db : Database :=
  ⟨[("table_view", ⟨["table"], [[some "t_metadata"]]⟩),
    ("t_metadata_view", ⟨["title"], [[some "My Taxonomy"]]⟩)]⟩

def c9Doc : CellTypeAnnotation :=
  ⟨[("author_name", .vstr ""), ("title", .vstr "My Taxonomy")], [], []⟩

theorem export_deterministic_witness :
    c9Doc.fields = c9Doc.fields ∧ c9Doc.annotations = c9Doc.annotations ∧
      c9Doc.labelsets = c9Doc.labelsets :=
  export_deterministic c9Db c9Doc c9Doc rfl rfl

/-!
### Claim C3
-/

/-- Claim C3, amended: when the (prefix-stripped) `algorithm_name` column is
present, an empty value attaches no `AutomatedAnnotation` and is not an
error, and a non-empty value attaches one filled from the renamed column
view; when the column is absent, however, the lookup raises (see the
counterexample), contrary to the claim. -/
theorem labelset_automated_annotation_attach (ls0 aa0 ls : Entity)
    (columns : List String) (row : Row)
    (hmem : "algorithm_name" ∈ renamedColumns columns)
    (hfill : auto_fill_object_from_row ls0 columns row = .ok ls) :
    (cellTruthy (cellAt (renamedColumns columns) row "algorithm_name") = false →
      parse_labelset_row ls0 aa0 columns row = some ls) ∧
    (∀ aa, cellTruthy (cellAt (renamedColumns columns) row "algorithm_name") = true →
      auto_fill_object_from_row aa0 (renamedColumns columns) row = .ok aa →
      parse_labelset_row ls0 aa0 columns row =
          some (setattr ls "automated_annotation" (.vobj aa)) ∧
        getattr (setattr ls "automated_annotation" (.vobj aa)) "automated_annotation" =
          some (.vobj aa)) := by
  constructor
  · intro hfalsy
    simp [parse_labelset_row, hfill, hmem, hfalsy]
  · intro aa htruthy haa
    refine ⟨?_, getattr_setattr_self ls "automated_annotation" (.vobj aa)⟩
    simp [parse_labelset_row, hfill, hmem, htruthy, haa]

def c3Ls0 : Entity := [("name", .vstr "")]

/-- Claim C3 counterexample: a labelset row whose column list has no
(prefix-stripped) `algorithm_name` column raises — the claim's "the column
is absent … is not an error" is false on the code, which calls
`renamed_columns.index("algorithm_name")` unconditionally. -/
theorem labelset_missing_algorithm_column_error :
    parse_labelset_row c3Ls0 automated_annotation0 ["name"] [some "cluster"] = none := rfl

def c3Cols : List String := ["name", "automated_annotation_algorithm_name"]

def c3Row : Row := [some "cluster", some "SciKit-v2"]

theorem labelset_automated_annotation_attach_witness :
    parse_labelset_row labelset0 automated_annotation0 c3Cols c3Row =
      some (setattr (extractOk (auto_fill_object_from_row labelset0 c3Cols c3Row))
        "automated_annotation"
        (.vobj (extractOk (auto_fill_object_from_row automated_annotation0
          (renamedColumns c3Cols) c3Row)))) :=
  ((labelset_automated_annotation_attach labelset0 automated_annotation0
      (extractOk (auto_fill_object_from_row labelset0 c3Cols c3Row)) c3Cols c3Row
      (by decide) rfl).2
    (extractOk (auto_fill_object_from_row automated_annotation0
      (renamedColumns c3Cols) c3Row)) rfl rfl).1

/-!
### Claim C1: overrides take precedence
-/

/-- A well-formed override record: a dict with a string `column` and a
`value`. -/
def overrideRec : Value → Option (String × Value)
  | .vobj kvs =>
    match getattr kvs "column" with
    | some (.vstr c) =>
      match getattr kvs "value" with
      | some v => some (c, v)
      | none => none
    | _ => none
  | _ => none

/-- The effect of one well-formed override record on the object. -/
def ovStep (columns : List String) (obj : Entity) (m : Value) : Entity :=
  match overrideRec m with
  | some p => if p.1 ∈ columns then setattr obj p.1 p.2 else obj
  | none => obj

/-- The last override record of the list naming column `c`, if any. -/
def lastOverrideFor (c : String) : List Value → Option Value
  | [] => none
  | m :: ms =>
    match lastOverrideFor c ms with
    | some v => some v
    | none =>
      match overrideRec m with
      | some p => if p.1 = c then some p.2 else none
      | none => none

theorem applyOverride_wf (columns : List String) (obj : Entity) (m : Value)
    (h : (overrideRec m).isSome = true) :
    applyOverride columns obj m = some (ovStep columns obj m) := by
  cases m with
  | vobj kvs =>
    cases hc : getattr kvs "column" with
    | none => simp [overrideRec, hc] at h
    | some cv =>
      cases cv with
      | vstr c =>
        cases hv : getattr kvs "value" with
        | none => simp [overrideRec, hc, hv] at h
        | some v =>
          by_cases hmem : c ∈ columns
          · simp [applyOverride, overrideRec, hc, hv, ovStep, hmem]
          · simp [applyOverride, overrideRec, hc, hv, ovStep, hmem]
      | vnull => simp [overrideRec, hc] at h
      | vbool b => simp [overrideRec, hc] at h
      | vint n => simp [overrideRec, hc] at h
      | vfloat s => simp [overrideRec, hc] at h
      | vlist l => simp [overrideRec, hc] at h
      | vobj o => simp [overrideRec, hc] at h
  | vnull => simp [overrideRec] at h
  | vbool b => simp [overrideRec] at h
  | vint n => simp [overrideRec] at h
  | vfloat s => simp [overrideRec] at h
  | vstr s => simp [overrideRec] at h
  | vlist l => simp [overrideRec] at h

theorem applyOverrides_wf (columns : List String) :
    ∀ (msgs : List Value) (obj : Entity),
      (∀ x ∈ msgs, (overrideRec x).isSome = true) →
      applyOverrides columns obj msgs = .ok (msgs.foldl (ovStep columns) obj) := by
  intro msgs
  induction msgs with
  | nil => intro obj _; rfl
  | cons m ms ih =>
    intro obj hwf
    have hm := hwf m (List.mem_cons_self m ms)
    have hrest := ih (ovStep columns obj m)
      (fun x hx => hwf x (List.mem_cons_of_mem m hx))
    simp [applyOverrides, applyOverride_wf columns obj m hm, List.foldl_cons, hrest]

theorem getattr_ovFold (columns : List String) (c : String) (hc : c ∈ columns) :
    ∀ (msgs : List Value) (obj : Entity),
      getattr (msgs.foldl (ovStep columns) obj) c =
        (lastOverrideFor c msgs).elim (getattr obj c) some := by
  intro msgs
  induction msgs with
  | nil => intro obj; rfl
  | cons m ms ih =>
    intro obj
    rw [List.foldl_cons, ih (ovStep columns obj m)]
    cases hl : lastOverrideFor c ms with
    | some v => simp [lastOverrideFor, hl]
    | none =>
      simp only [lastOverrideFor, hl, Option.elim]
      cases hm : overrideRec m with
      | none => simp [ovStep, hm]
      | some p =>
        obtain ⟨d, v⟩ := p
        by_cases hdc : d = c
        · subst hdc
          simp [ovStep, hm, hc, getattr_setattr_self]
        · simp only [ovStep, hm]
          by_cases hdm : d ∈ columns
          · simp [hdm, getattr_setattr_ne obj d c v (Ne.symm hdc), hdc]
          · simp [hdm, hdc]

theorem messageStep_decoded (columns : List String) (row : Row) (m : String)
    (msgs : List Value)
    (hmem : "message" ∈ columns)
    (hcell : cellAt columns row "message" = some m)
    (hne : m ≠ "")
    (hjson : jsonLoads m = some (.vlist msgs))
    (hwf : ∀ x ∈ msgs, (overrideRec x).isSome = true) (o : Entity) :
    messageStep columns row o = .ok (msgs.foldl (ovStep columns) o) := by
  simp [messageStep, hmem, hcell, hne, hjson, applyOverrides_wf columns msgs o hwf]

theorem autoFillLoop_last_message (columns : List String) (row : Row) :
    ∀ (cs : List String) (c : String) (obj obj' : Entity),
      autoFillLoop columns row obj (c :: cs) = .ok obj' →
      ∃ o, messageStep columns row o = .ok obj' := by
  intro cs
  induction cs with
  | nil =>
    intro c obj obj' h
    cases hf : fillStep columns row obj c with
    | error e => simp [autoFillLoop, hf] at h
    | ok o =>
      simp [autoFillLoop, hf] at h
      unfold fillStep at hf
      cases hp : positionalStep columns row obj c with
      | error e => rw [hp] at hf; cases hf
      | ok o0 =>
        rw [hp] at hf
        rw [← h]
        exact ⟨o0, hf⟩
  | cons c' cs' ih =>
    intro c obj obj' h
    cases hf : fillStep columns row obj c with
    | error e => simp [autoFillLoop, hf] at h
    | ok o =>
      simp only [autoFillLoop, hf] at h
      exact ih c' o obj' h

/-- Claim C1: whenever the row's non-empty `message` decodes as a JSON list
of well-formed `(column, value)` override records and the Row Mapper
completes, every field named by an override whose column is in the column
list ends at that override's value (the last such record when several name
the same column), regardless of the row's positional value. -/
theorem override_final_value (obj obj' : Entity) (columns : List String) (row : Row)
    (m : String) (msgs : List Value) (c : String) (v : Value)
    (hmem : "message" ∈ columns)
    (hcell : cellAt columns row "message" = some m)
    (hne : m ≠ "")
    (hjson : jsonLoads m = some (.vlist msgs))
    (hwf : ∀ x ∈ msgs, (overrideRec x).isSome = true)
    (hok : auto_fill_object_from_row obj columns row = .ok obj')
    (hc : c ∈ columns)
    (hlast : lastOverrideFor c msgs = some v) :
    getattr obj' c = some v := by
  cases columns with
  | nil => cases hmem
  | cons c0 cs =>
    obtain ⟨o, ho⟩ := autoFillLoop_last_message (c0 :: cs) row cs c0 obj obj' hok
    rw [messageStep_decoded (c0 :: cs) row m msgs hmem hcell hne hjson hwf o] at ho
    injection ho with ho
    rw [← ho, getattr_ovFold (c0 :: cs) c hc msgs o, hlast]
    rfl

def c1Obj : Entity := [("cell_set_accession", .vstr ""), ("cell_label", .vstr "")]

def c1Cols : List String := ["cell_set_accession", "cell_label", "custom_field", "message"]

def c1Msg : String := "[\x7b\"column\":\"cell_label\",\"value\":\"Corrected Neuron\"\x7d]"

def c1Row : Row := [some "CS001", some "Neuron", some "foo", some c1Msg]

def c1Msgs : List Value :=
  [.vobj [("column", .vstr "cell_label"), ("value", .vstr "Corrected Neuron")]]

theorem override_final_value_witness :
    getattr (extractOk (auto_fill_object_from_row c1Obj c1Cols c1Row)) "cell_label" =
      some (.vstr "Corrected Neuron") :=
  override_final_value c1Obj (extractOk (auto_fill_object_from_row c1Obj c1Cols c1Row))
    c1Cols c1Row c1Msg c1Msgs "cell_label" (.vstr "Corrected Neuron")
    (by decide) rfl (by decide) rfl (by decide) rfl (by decide) rfl

/-!
### Claim C2: attribute creation
-/

def c2Obj : Entity := [("cell_label", .vstr "")]

def c2Cols : List String := ["custom_col", "message"]

def c2Row : Row := [some "x", some "[\x7b\"column\":\"custom_col\",\"value\":\"y\"\x7d]"]

/-- Claim C2 counterexample: the override path of the Row Mapper has no
`hasattr` guard; an override record naming a column that is in the column
list but not a declared field creates a new attribute, so the attribute-name
set of the entity changes on this successful call. -/
theorem mapper_attr_creation_counterexample :
    exceptIsOk (auto_fill_object_from_row c2Obj c2Cols c2Row) = true ∧
    keys (extractOk (auto_fill_object_from_row c2Obj c2Cols c2Row)) ≠ keys c2Obj :=
  ⟨rfl, by decide⟩

/-- The columns of well-formed override records that lie in the column
list. -/
def overrideNamesOf (columns : List String) (msgs : List Value) : List String :=
  ((msgs.filterMap overrideRec).map Prod.fst).filter (fun c => columns.contains c)

/-- The decoded override columns the Mapper would apply for this row: those
of well-formed records that lie in the column list (empty when no `message`
column, an empty/NULL message, or an undecodable one). -/
def overrideNames (columns : List String) (row : Row) : List String :=
  if "message" ∈ columns then
    match cellAt columns row "message" with
    | none => []
    | some m =>
      if m = "" then []
      else
        match jsonLoads m with
        | some (.vlist msgs) => overrideNamesOf columns msgs
        | _ => []
  else []

theorem overrideNames_eq (columns : List String) (row : Row) (m : String)
    (msgs : List Value)
    (hm : "message" ∈ columns) (hc : cellAt columns row "message" = some m)
    (hme : m ≠ "") (hj : jsonLoads m = some (.vlist msgs)) :
    overrideNames columns row = overrideNamesOf columns msgs := by
  unfold overrideNames
  rw [if_pos hm]
  simp only [hc]
  rw [if_neg hme, hj]

theorem positionalStep_cases (columns : List String) (row : Row) (obj : Entity)
    (d : String) :
    positionalStep columns row obj d = .ok obj ∨
    (∃ v, hasattr obj d = true ∧ positionalStep columns row obj d = .ok (setattr obj d v)) ∨
    positionalStep columns row obj d = .error obj := by
  unfold positionalStep
  by_cases hd : hasattr obj d
  · rw [if_pos hd]
    cases cellAt columns row d with
    | none => left; rfl
    | some s =>
      by_cases hs : s = ""
      · left; simp [hs]
      · by_cases hb : (strStartsWith s "[" && strEndsWith s "]") = true
        · cases hl : literalEval s with
          | none => right; right; simp [hs, hb, hl]
          | some v => right; left; exact ⟨v, hd, by simp [hs, hb, hl]⟩
        · right; left; exact ⟨.vstr s, hd, by simp [hs, hb]⟩
  · left; rw [if_neg hd]

theorem positionalStep_keys (columns : List String) (row : Row) (obj o : Entity)
    (d : String) (h : positionalStep columns row obj d = .ok o) :
    keys o = keys obj := by
  rcases positionalStep_cases columns row obj d with hcase | ⟨v, hattr, hcase⟩ | hcase
  · rw [hcase] at h; injection h with h; rw [← h]
  · rw [hcase] at h; injection h with h; rw [← h]
    exact keys_setattr_of_hasattr obj d v hattr
  · rw [hcase] at h; cases h

theorem applyOverride_keys (columns : List String) (obj o : Entity) (m : Value)
    (hov : ∀ c v, overrideRec m = some (c, v) → c ∈ columns → hasattr obj c = true)
    (h : applyOverride columns obj m = some o) :
    keys o = keys obj := by
  cases m with
  | vobj kvs =>
    cases hc : getattr kvs "column" with
    | none => simp [applyOverride, hc] at h
    | some cv =>
      cases cv with
      | vstr c =>
        by_cases hmem : c ∈ columns
        · cases hv : getattr kvs "value" with
          | none => simp [applyOverride, hc, hmem, hv] at h
          | some v =>
            have hrec : overrideRec (.vobj kvs) = some (c, v) := by
              simp [overrideRec, hc, hv]
            have hattr := hov c v hrec hmem
            simp only [applyOverride, hc, hmem, if_pos, hv, Option.some.injEq] at h
            rw [← h]
            exact keys_setattr_of_hasattr obj c v hattr
        · simp [applyOverride, hc, hmem] at h
          rw [← h]
      | vnull => simp [applyOverride, hc] at h; rw [← h]
      | vbool b => simp [applyOverride, hc] at h; rw [← h]
      | vint n => simp [applyOverride, hc] at h; rw [← h]
      | vfloat s => simp [applyOverride, hc] at h; rw [← h]
      | vlist l => simp [applyOverride, hc] at h; rw [← h]
      | vobj kvs2 => simp [applyOverride, hc] at h; rw [← h]
  | vnull => simp [applyOverride] at h
  | vbool b => simp [applyOverride] at h
  | vint n => simp [applyOverride] at h
  | vfloat s => simp [applyOverride] at h
  | vstr s => simp [applyOverride] at h
  | vlist l => simp [applyOverride] at h

theorem applyOverrides_keys (columns : List String) (K : List String) :
    ∀ (msgs : List Value) (obj o : Entity), keys obj = K →
      (∀ m ∈ msgs, ∀ c v, overrideRec m = some (c, v) → c ∈ columns → c ∈ K) →
      applyOverrides columns obj msgs = .ok o → keys o = K := by
  intro msgs
  induction msgs with
  | nil =>
    intro obj o hK _ h
    injection h with h
    rw [← h]; exact hK
  | cons m ms ih =>
    intro obj o hK hov h
    unfold applyOverrides at h
    cases ha : applyOverride columns obj m with
    | none => rw [ha] at h; cases h
    | some obj1 =>
      rw [ha] at h
      have hk1 : keys obj1 = keys obj := by
        refine applyOverride_keys columns obj obj1 m ?_ ha
        intro c v hrec hcmem
        rw [hasattr_iff_mem_keys, hK]
        exact hov m (List.mem_cons_self m ms) c v hrec hcmem
      exact ih obj1 o (hk1.trans hK)
        (fun x hx => hov x (List.mem_cons_of_mem m hx)) h

theorem messageStep_keys (columns : List String) (row : Row) (K : List String)
    (hov : ∀ c ∈ overrideNames columns row, c ∈ K) :
    ∀ (obj o : Entity), keys obj = K → messageStep columns row obj = .ok o →
      keys o = K := by
  intro obj o hK h
  unfold messageStep at h
  by_cases hm : "message" ∈ columns
  · rw [if_pos hm] at h
    cases hc : cellAt columns row "message" with
    | none => simp only [hc] at h; injection h with h; rw [← h]; exact hK
    | some m =>
      simp only [hc] at h
      by_cases hme : m = ""
      · rw [if_pos hme] at h; injection h with h; rw [← h]; exact hK
      · rw [if_neg hme] at h
        cases hj : jsonLoads m with
        | none =>
          rw [hj] at h
          exact Except.noConfusion h
        | some v =>
          rw [hj] at h
          cases v with
          | vlist msgs =>
            have h' : applyOverrides columns obj msgs = Except.ok o := h
            refine applyOverrides_keys columns K msgs obj o hK ?_ h'
            intro x hx c vv hrec hcmem
            apply hov
            rw [overrideNames_eq columns row m msgs hm hc hme hj]
            refine List.mem_filter.mpr ⟨?_, ?_⟩
            · exact List.mem_map.mpr ⟨(c, vv), List.mem_filterMap.mpr ⟨x, hx, hrec⟩, rfl⟩
            · simpa using hcmem
          | vnull => exact Except.noConfusion h
          | vbool b => exact Except.noConfusion h
          | vint n => exact Except.noConfusion h
          | vfloat s => exact Except.noConfusion h
          | vstr s => exact Except.noConfusion h
          | vobj kvs => exact Except.noConfusion h
  · rw [if_neg hm] at h; injection h with h; rw [← h]; exact hK

theorem autoFillLoop_keys (columns : List String) (row : Row) (K : List String)
    (hov : ∀ c ∈ overrideNames columns row, c ∈ K) :
    ∀ (cs : List String) (obj o : Entity), keys obj = K →
      autoFillLoop columns row obj cs = .ok o → keys o = K := by
  intro cs
  induction cs with
  | nil =>
    intro obj o hK h
    injection h with h
    rw [← h]; exact hK
  | cons c cs' ih =>
    intro obj o hK h
    unfold autoFillLoop at h
    cases hf : fillStep columns row obj c with
    | error e => rw [hf] at h; cases h
    | ok o1 =>
      rw [hf] at h
      unfold fillStep at hf
      cases hp : positionalStep columns row obj c with
      | error e => rw [hp] at hf; cases hf
      | ok o0 =>
        rw [hp] at hf
        have hk0 : keys o0 = K :=
          (positionalStep_keys columns row obj o0 c hp).trans hK
        have hk1 : keys o1 = K := messageStep_keys columns row K hov o0 o1 hk0 hf
        exact ih o1 o hk1 h

/-- Claim C2, amended: the positional path never creates an attribute (it is
guarded by `hasattr`), so whenever every override column the Mapper applies
is an already-declared attribute — in particular whenever there is no
`message` column or its value is empty — a completed call leaves the
attribute-name set unchanged.  Override records naming a column in the
column list that is not declared do create attributes (see the
counterexample). -/
theorem mapper_preserves_declared_attributes (obj obj' : Entity)
    (columns : List String) (row : Row)
    (hov : ∀ c ∈ overrideNames columns row, hasattr obj c = true)
    (hok : auto_fill_object_from_row obj columns row = .ok obj') :
    keys obj' = keys obj :=
  autoFillLoop_keys columns row (keys obj)
    (fun c hc => (hasattr_iff_mem_keys obj c).mp (hov c hc))
    columns obj obj' rfl hok

def c2wObj : Entity := [("name", .vstr "old")]

theorem mapper_preserves_declared_attributes_witness :
    keys (extractOk (auto_fill_object_from_row c2wObj ["name"] [some "x"])) =
      keys c2wObj :=
  mapper_preserves_declared_attributes c2wObj
    (extractOk (auto_fill_object_from_row c2wObj ["name"] [some "x"]))
    ["name"] [some "x"] (by decide) rfl

/-!
### Claim C5: extension columns become exactly one UserAnnotation each
-/

theorem countP_eq_one_of_nodup_mem (l : List String) (c : String)
    (hnd : l.Nodup) (hc : c ∈ l) : l.countP (fun x => x == c) = 1 := by
  induction l with
  | nil => cases hc
  | cons a l ih =>
    rw [List.countP_cons]
    have hnd' := List.nodup_cons.mp hnd
    rcases List.mem_cons.mp hc with hca | h
    · have hac : (a == c) = true := by
        rw [beq_iff_eq]
        exact hca.symm
      have hz : l.countP (fun x => x == c) = 0 := by
        refine List.countP_eq_zero.mpr ?_
        intro x hx
        have hne : x ≠ c := by
          intro he
          subst he
          rw [hca] at hx
          exact hnd'.1 hx
        simp [hne]
      simp [hz, hac]
    · have hne : a ≠ c := by
        intro he
        subst he
        exact hnd'.1 h
      have hr := ih hnd'.2 h
      simp [hr, hne]

/-- Claim C5: for every annotation row, each column that (after the Row
Mapper ran) is not an attribute of the filled annotation and is not
`row_number`/`message` yields exactly one `UserAnnotation` pair carrying the
raw string of its cell; no pair is produced for any other column; and the
parser attaches exactly this pair list to the annotation. -/
theorem annotation_user_annotations_exact (ann0 ann : Entity)
    (columns : List String) (row : Row)
    (hnodup : columns.Nodup)
    (hfill : auto_fill_object_from_row ann0 columns row = .ok ann) :
    parse_annotation_row ann0 columns row =
      some (setattr ann "user_annotations"
        (encodeUAs (userAnnotationsFor ann columns row))) ∧
    (∀ c ∈ columns, hasattr ann c = false → c ≠ "row_number" → c ≠ "message" →
      (userAnnotationsFor ann columns row).countP (fun p => p.1 == c) = 1 ∧
      (c, pyStr (cellAt columns row c)) ∈ userAnnotationsFor ann columns row) ∧
    (∀ p ∈ userAnnotationsFor ann columns row,
      p.1 ∈ columns ∧ hasattr ann p.1 = false ∧ p.1 ≠ "row_number" ∧
        p.1 ≠ "message") := by
  refine ⟨by simp [parse_annotation_row, hfill], ?_, ?_⟩
  · intro c hc hattr hrn hmsg
    have hpred : (!hasattr ann c && !(c = "row_number") && !(c = "message")) = true := by
      simp [hattr, hrn, hmsg]
    constructor
    · unfold userAnnotationsFor
      rw [List.countP_map]
      have hcnt : (columns.filter
          (fun c => !hasattr ann c && !(c = "row_number") && !(c = "message"))).countP
            (fun x => x == c) = 1 :=
        countP_eq_one_of_nodup_mem _ c (hnodup.filter _)
          (List.mem_filter.mpr ⟨hc, hpred⟩)
      rw [← hcnt]
      rfl
    · unfold userAnnotationsFor
      exact List.mem_map_of_mem _ (List.mem_filter.mpr ⟨hc, hpred⟩)
  · intro p hp
    unfold userAnnotationsFor at hp
    obtain ⟨c, hcf, rfl⟩ := List.mem_map.mp hp
    obtain ⟨hcm, hpred⟩ := List.mem_filter.mp hcf
    simp only [Bool.and_eq_true, Bool.not_eq_true', decide_eq_false_iff_not] at hpred
    exact ⟨hcm, hpred.1.1, fun he => hpred.1.2 he, fun he => hpred.2 he⟩

def c5Cols : List String := ["cell_set_accession", "cell_label", "custom_field", "message"]

def c5Row : Row := [some "CS001", some "Neuron", some "foo",
  some "[\x7b\"column\":\"cell_label\",\"value\":\"Corrected Neuron\"\x7d]"]

theorem annotation_user_annotations_exact_witness :
    (userAnnotationsFor (extractOk (auto_fill_object_from_row annotation0 c5Cols c5Row))
        c5Cols c5Row).countP (fun p => p.1 == "custom_field") = 1 ∧
    ("custom_field",
        pyStr (cellAt c5Cols c5Row "custom_field")) ∈
      userAnnotationsFor (extractOk (auto_fill_object_from_row annotation0 c5Cols c5Row))
        c5Cols c5Row :=
  (annotation_user_annotations_exact annotation0
      (extractOk (auto_fill_object_from_row annotation0 c5Cols c5Row)) c5Cols c5Row
      (by decide) rfl).2.1 "custom_field" (by decide) rfl (by decide) (by decide)

/-!
### Claim C6: transfer linking
-/

theorem updateFirstMatch_length (t : String) (tr : Entity) :
    ∀ (anns : List Entity), (updateFirstMatch anns t tr).length = anns.length := by
  intro anns
  induction anns with
  | nil => rfl
  | cons a as ih =>
    unfold updateFirstMatch
    by_cases h : accessionMatches a t = true
    · simp [h]
    · simp [h, ih]

theorem updateFirstMatch_spec (t : String) (tr : Entity) :
    ∀ (anns : List Entity), (∃ a ∈ anns, accessionMatches a t = true) →
      (∀ j, j ≠ anns.findIdx (fun a => accessionMatches a t) →
        (updateFirstMatch anns t tr)[j]? = anns[j]?) ∧
      (updateFirstMatch anns t tr)[anns.findIdx (fun a => accessionMatches a t)]? =
        (anns[anns.findIdx (fun a => accessionMatches a t)]?).map
          (fun a => appendTransfer a tr) := by
  intro anns
  induction anns with
  | nil =>
    intro h
    obtain ⟨a, ha, _⟩ := h
    cases ha
  | cons a as ih =>
    intro hex
    cases hm : accessionMatches a t with
    | true =>
      have hidx : (a :: as).findIdx (fun a => accessionMatches a t) = 0 := by
        simp [List.findIdx_cons, hm]
      rw [hidx]
      constructor
      · intro j hj
        match j, hj with
        | j + 1, _ =>
          simp [updateFirstMatch, hm, List.getElem?_cons_succ]
      · simp [updateFirstMatch, hm]
    | false =>
      have hex' : ∃ b ∈ as, accessionMatches b t = true := by
        obtain ⟨b, hb, hbm⟩ := hex
        rcases List.mem_cons.mp hb with rfl | hb'
        · rw [hbm] at hm; cases hm
        · exact ⟨b, hb', hbm⟩
      have hidx : (a :: as).findIdx (fun a => accessionMatches a t) =
          as.findIdx (fun a => accessionMatches a t) + 1 := by
        simp [List.findIdx_cons, hm]
      obtain ⟨ihne, iheq⟩ := ih hex'
      rw [hidx]
      constructor
      · intro j hj
        match j with
        | 0 => simp [updateFirstMatch, hm]
        | j + 1 =>
          have hj' : j ≠ as.findIdx (fun a => accessionMatches a t) := by
            intro he
            exact hj (by rw [he])
          simp [updateFirstMatch, hm, List.getElem?_cons_succ, ihne j hj']
      · simp [updateFirstMatch, hm, List.getElem?_cons_succ, iheq]

theorem transferList_setattr (a : Entity) (ts : List Value) :
    transferList (setattr a "transferred_annotations" (.vlist ts)) = ts := by
  unfold transferList
  rw [getattr_setattr_self]

theorem transferList_appendTransfer (a tr : Entity) :
    transferList (appendTransfer a tr) = transferList a ++ [.vobj tr] := by
  cases hg : getattr a "transferred_annotations" with
  | none =>
    have h1 : appendTransfer a tr =
        setattr a "transferred_annotations" (.vlist [.vobj tr]) := by
      unfold appendTransfer
      rw [hg]
    have h2 : transferList a = [] := by
      unfold transferList
      rw [hg]
    rw [h1, transferList_setattr, h2]
    rfl
  | some v =>
    cases v with
    | vlist ts =>
      have hta : transferList a = ts := by
        unfold transferList
        rw [hg]
      by_cases he : ts.isEmpty = true
      · have hts : ts = [] := by
          cases ts with
          | nil => rfl
          | cons x xs => simp [List.isEmpty] at he
        subst hts
        have h1 : appendTransfer a tr =
            setattr a "transferred_annotations" (.vlist [.vobj tr]) := by
          unfold appendTransfer
          rw [hg]
          rfl
        rw [h1, transferList_setattr, hta]
        rfl
      · have h1 : appendTransfer a tr =
            if ts.isEmpty then
              setattr a "transferred_annotations" (.vlist [.vobj tr])
            else setattr a "transferred_annotations" (.vlist (ts ++ [.vobj tr])) := by
          unfold appendTransfer
          rw [hg]
        rw [h1, if_neg he, transferList_setattr, hta]
    | vnull =>
      have h1 : appendTransfer a tr =
          setattr a "transferred_annotations" (.vlist [.vobj tr]) := by
        unfold appendTransfer
        rw [hg]
      have h2 : transferList a = [] := by
        unfold transferList
        rw [hg]
      rw [h1, transferList_setattr, h2]
      rfl
    | vbool b =>
      have h1 : appendTransfer a tr =
          setattr a "transferred_annotations" (.vlist [.vobj tr]) := by
        unfold appendTransfer
        rw [hg]
      have h2 : transferList a = [] := by
        unfold transferList
        rw [hg]
      rw [h1, transferList_setattr, h2]
      rfl
    | vint n =>
      have h1 : appendTransfer a tr =
          setattr a "transferred_annotations" (.vlist [.vobj tr]) := by
        unfold appendTransfer
        rw [hg]
      have h2 : transferList a = [] := by
        unfold transferList
        rw [hg]
      rw [h1, transferList_setattr, h2]
      rfl
    | vfloat s =>
      have h1 : appendTransfer a tr =
          setattr a "transferred_annotations" (.vlist [.vobj tr]) := by
        unfold appendTransfer
        rw [hg]
      have h2 : transferList a = [] := by
        unfold transferList
        rw [hg]
      rw [h1, transferList_setattr, h2]
      rfl
    | vstr s =>
      have h1 : appendTransfer a tr =
          setattr a "transferred_annotations" (.vlist [.vobj tr]) := by
        unfold appendTransfer
        rw [hg]
      have h2 : transferList a = [] := by
        unfold transferList
        rw [hg]
      rw [h1, transferList_setattr, h2]
      rfl
    | vobj kvs =>
      have h1 : appendTransfer a tr =
          setattr a "transferred_annotations" (.vlist [.vobj tr]) := by
        unfold appendTransfer
        rw [hg]
      have h2 : transferList a = [] := by
        unfold transferList
        rw [hg]
      rw [h1, transferList_setattr, h2]
      rfl

/-- Claim C6: for an annotation-transfer row with a present, non-empty
`target_node_accession`: if no annotation's `cell_set_accession` matches,
nothing is appended anywhere and no error is raised; if at least one
matches and the transfer fills without raising, exactly one transfer built
from the row is appended at the end of the first matching annotation's
transfer sequence (created if absent) and every other annotation is left
unchanged. -/
theorem annotation_transfer_link (tr0 : Entity) (anns : List Entity)
    (columns : List String) (row : Row) (t : String)
    (hmem : "target_node_accession" ∈ columns)
    (hcell : cellAt columns row "target_node_accession" = some t)
    (ht : t ≠ "") :
    ((∀ a ∈ anns, accessionMatches a t = false) →
      parse_annotation_transfer_row tr0 anns columns row = some anns) ∧
    (∀ tr, (∃ a ∈ anns, accessionMatches a t = true) →
      auto_fill_object_from_row tr0 columns row = .ok tr →
      parse_annotation_transfer_row tr0 anns columns row =
          some (updateFirstMatch anns t tr) ∧
        (updateFirstMatch anns t tr).length = anns.length ∧
        (∀ j, j ≠ anns.findIdx (fun a => accessionMatches a t) →
          (updateFirstMatch anns t tr)[j]? = anns[j]?) ∧
        ((updateFirstMatch anns t tr)[anns.findIdx (fun a => accessionMatches a t)]? =
          (anns[anns.findIdx (fun a => accessionMatches a t)]?).map
            (fun a => appendTransfer a tr)) ∧
        (∀ a : Entity,
          transferList (appendTransfer a tr) = transferList a ++ [.vobj tr])) := by
  constructor
  · intro hnone
    have hany : anns.any (fun a => accessionMatches a t) = false := by
      rw [List.any_eq_false]
      intro a ha
      simp [hnone a ha]
    simp [parse_annotation_transfer_row, hmem, hcell, ht, hany]
  · intro tr hex hfill
    have hany : anns.any (fun a => accessionMatches a t) = true :=
      List.any_eq_true.mpr (by
        obtain ⟨a, ha, hma⟩ := hex
        exact ⟨a, ha, hma⟩)
    obtain ⟨hne, heq⟩ := updateFirstMatch_spec t tr anns hex
    exact ⟨by simp [parse_annotation_transfer_row, hmem, hcell, ht, hany, hfill],
      updateFirstMatch_length t tr anns, hne, heq,
      fun a => transferList_appendTransfer a tr⟩

def c6A : Entity := [("cell_set_accession", .vstr "CS001"),
  ("transferred_annotations", .vnull)]

def c6B : Entity := [("cell_set_accession", .vstr "CS002"),
  ("transferred_annotations", .vnull)]

def c6Cols : List String := ["target_node_accession", "comment"]

def c6Row : Row := [some "CS002", some "checked"]

def c6Anns : List Entity := [c6A, c6B]

def c6Tr : Entity :=
  extractOk (auto_fill_object_from_row annotation_transfer0 c6Cols c6Row)

def c6Idx : Nat := c6Anns.findIdx (fun a => accessionMatches a "CS002")

theorem annotation_transfer_link_witness :
    parse_annotation_transfer_row annotation_transfer0 c6Anns c6Cols c6Row =
        some (updateFirstMatch c6Anns "CS002" c6Tr) ∧
      (updateFirstMatch c6Anns "CS002" c6Tr).length = c6Anns.length ∧
      (∀ j, j ≠ c6Idx → (updateFirstMatch c6Anns "CS002" c6Tr)[j]? = c6Anns[j]?) ∧
      ((updateFirstMatch c6Anns "CS002" c6Tr)[c6Idx]? =
        (c6Anns[c6Idx]?).map (fun a => appendTransfer a c6Tr)) ∧
      (∀ a : Entity,
        transferList (appendTransfer a c6Tr) = transferList a ++ [.vobj c6Tr]) :=
  (annotation_transfer_link annotation_transfer0 c6Anns c6Cols c6Row "CS002"
      (by decide) rfl (by decide)).2 c6Tr
    ⟨c6B, List.mem_cons_of_mem c6A (List.mem_cons_self c6B []), rfl⟩ rfl

/-!
### Claim C4: positional assignment without a message column
-/

theorem positionalStep_getattr_ne (columns : List String) (row : Row)
    (obj o : Entity) (d c : String) (hne : c ≠ d)
    (h : positionalStep columns row obj d = .ok o) :
    getattr o c = getattr obj c := by
  rcases positionalStep_cases columns row obj d with hcase | ⟨v, _, hcase⟩ | hcase
  · rw [hcase] at h; injection h with h; rw [← h]
  · rw [hcase] at h; injection h with h; rw [← h]
    exact getattr_setattr_ne obj d c v hne
  · rw [hcase] at h; cases h

theorem fillStep_frame (columns : List String) (row : Row)
    (hmsg : "message" ∉ columns ∨ cellTruthy (cellAt columns row "message") = false)
    (obj o : Entity) (d c : String) (hne : c ≠ d)
    (h : fillStep columns row obj d = .ok o) :
    getattr o c = getattr obj c := by
  unfold fillStep at h
  cases hp : positionalStep columns row obj d with
  | error e =>
    rw [hp] at h
    exact Except.noConfusion h
  | ok o0 =>
    rw [hp] at h
    have hm : messageStep columns row o0 = .ok o := h
    rw [messageStep_inactive columns row hmsg o0] at hm
    injection hm with hm
    rw [← hm]
    exact positionalStep_getattr_ne columns row obj o0 d c hne hp

theorem autoFillLoop_frame (columns : List String) (row : Row)
    (hmsg : "message" ∉ columns ∨ cellTruthy (cellAt columns row "message") = false)
    (c : String) :
    ∀ (cs : List String) (obj o : Entity), c ∉ cs →
      autoFillLoop columns row obj cs = .ok o → getattr o c = getattr obj c := by
  intro cs
  induction cs with
  | nil =>
    intro obj o _ h
    injection h with h
    rw [← h]
  | cons d cs' ih =>
    intro obj o hnotin h
    unfold autoFillLoop at h
    cases hf : fillStep columns row obj d with
    | error e =>
      rw [hf] at h
      exact Except.noConfusion h
    | ok o1 =>
      rw [hf] at h
      have hcd : c ≠ d := fun he => hnotin (he ▸ List.mem_cons_self d cs')
      have h1 := fillStep_frame columns row hmsg obj o1 d c hcd hf
      have h2 := ih o1 o (fun hm => hnotin (List.mem_cons_of_mem d hm)) h
      rw [h2, h1]

theorem positionalStep_value (columns : List String) (row : Row) (obj o : Entity)
    (c : String) (hattr : hasattr obj c = true)
    (h : positionalStep columns row obj c = .ok o) :
    (cellTruthy (cellAt columns row c) = false → getattr o c = getattr obj c) ∧
    (∀ s, cellAt columns row c = some s → s ≠ "" →
      ((strStartsWith s "[" && strEndsWith s "]") = false →
        getattr o c = some (.vstr s)) ∧
      (∀ w, (strStartsWith s "[" && strEndsWith s "]") = true →
        literalEval s = some w → getattr o c = some w)) := by
  unfold positionalStep at h
  rw [if_pos hattr] at h
  cases hcell : cellAt columns row c with
  | none =>
    rw [hcell] at h
    have h' : Except.ok (ε := Entity) obj = Except.ok o := h
    injection h' with h'
    subst h'
    refine ⟨fun _ => rfl, ?_⟩
    intro s hs
    cases hs
  | some s =>
    rw [hcell] at h
    by_cases hse : s = ""
    · have h' : Except.ok (ε := Entity) obj = Except.ok o := by
        rw [← h]
        simp [hse]
      injection h' with h'
      subst h'
      refine ⟨fun _ => rfl, ?_⟩
      intro s' hs' hne
      injection hs' with hs'
      subst hs'
      exact absurd hse hne
    · have h' : (if (strStartsWith s "[" && strEndsWith s "]") = true then
          match literalEval s with
          | none => Except.error obj
          | some v => Except.ok (setattr obj c v)
          else Except.ok (setattr obj c (.vstr s))) = Except.ok o := by
        rw [← h]
        simp [hse]
      constructor
      · intro hft
        simp [cellTruthy, hse] at hft
      · intro s' hs' hne
        injection hs' with hs'
        subst hs'
        constructor
        · intro hbf
          rw [if_neg (by simp [hbf])] at h'
          injection h' with h'
          rw [← h']
          exact getattr_setattr_self obj c (.vstr s)
        · intro w hbt hlit
          rw [if_pos hbt] at h'
          rw [hlit] at h'
          have h'' : Except.ok (ε := Entity) (setattr obj c w) = Except.ok o := h'
          injection h'' with h''
          rw [← h'']
          exact getattr_setattr_self obj c w

theorem hasattr_eq_of_getattr_eq (e e' : Entity) (c : String)
    (h : getattr e' c = getattr e c) : hasattr e' c = hasattr e c := by
  unfold hasattr
  rw [h]

theorem positional_loop_value (columns : List String) (row : Row)
    (hmsg : "message" ∉ columns ∨ cellTruthy (cellAt columns row "message") = false)
    (c : String) :
    ∀ (cs : List String), cs.Nodup → c ∈ cs →
      ∀ (obj obj' : Entity), hasattr obj c = true →
        autoFillLoop columns row obj cs = .ok obj' →
        (cellTruthy (cellAt columns row c) = false →
          getattr obj' c = getattr obj c) ∧
        (∀ s, cellAt columns row c = some s → s ≠ "" →
          ((strStartsWith s "[" && strEndsWith s "]") = false →
            getattr obj' c = some (.vstr s)) ∧
          (∀ w, (strStartsWith s "[" && strEndsWith s "]") = true →
            literalEval s = some w → getattr obj' c = some w)) := by
  intro cs
  induction cs with
  | nil =>
    intro _ hc
    cases hc
  | cons d cs' ih =>
    intro hnd hc obj obj' hattr h
    unfold autoFillLoop at h
    cases hf : fillStep columns row obj d with
    | error e =>
      rw [hf] at h
      exact Except.noConfusion h
    | ok o1 =>
      rw [hf] at h
      by_cases hdc : d = c
      · subst hdc
        have hnotin : d ∉ cs' := (List.nodup_cons.mp hnd).1
        have hframe := autoFillLoop_frame columns row hmsg d cs' o1 obj' hnotin h
        unfold fillStep at hf
        cases hp : positionalStep columns row obj d with
        | error e =>
          rw [hp] at hf
          exact Except.noConfusion hf
        | ok o0 =>
          rw [hp] at hf
          have hm : messageStep columns row o0 = .ok o1 := hf
          rw [messageStep_inactive columns row hmsg o0] at hm
          injection hm with hm
          subst hm
          obtain ⟨hv1, hv2⟩ := positionalStep_value columns row obj o0 d hattr hp
          refine ⟨?_, ?_⟩
          · intro hft
            rw [hframe, hv1 hft]
          · intro s hs hne
            obtain ⟨hb1, hb2⟩ := hv2 s hs hne
            exact ⟨fun hbf => by rw [hframe, hb1 hbf],
              fun w hbt hlit => by rw [hframe, hb2 w hbt hlit]⟩
      · have hcd : c ≠ d := fun he => hdc he.symm
        have h1 := fillStep_frame columns row hmsg obj o1 d c hcd hf
        have hattr1 : hasattr o1 c = true := by
          rw [hasattr_eq_of_getattr_eq obj o1 c h1]
          exact hattr
        have hc' : c ∈ cs' := by
          rcases List.mem_cons.mp hc with he | he
          · exact absurd he.symm hdc
          · exact he
        obtain ⟨hv1, hv2⟩ :=
          ih (List.nodup_cons.mp hnd).2 hc' o1 obj' hattr1 h
        refine ⟨?_, ?_⟩
        · intro hft
          rw [hv1 hft, h1]
        · intro s hs hne
          obtain ⟨hb1, hb2⟩ := hv2 s hs hne
          exact ⟨hb1, hb2⟩

/-- Claim C4: with no `message` column (or an empty one) and a duplicate-free
column list, the final value of each declared field matching a column is the
row's positional value for it — left at its prior value when the cell is
falsy, the parsed literal sequence when the string is bracketed, and the
verbatim string otherwise. -/
theorem positional_value_assignment (obj obj' : Entity) (columns : List String)
    (row : Row) (c : String)
    (hnodup : columns.Nodup)
    (hmsg : "message" ∉ columns ∨ cellTruthy (cellAt columns row "message") = false)
    (hok : auto_fill_object_from_row obj columns row = .ok obj')
    (hc : c ∈ columns) (hattr : hasattr obj c = true) :
    (cellTruthy (cellAt columns row c) = false →
      getattr obj' c = getattr obj c) ∧
    (∀ s, cellAt columns row c = some s → s ≠ "" →
      ((strStartsWith s "[" && strEndsWith s "]") = false →
        getattr obj' c = some (.vstr s)) ∧
      (∀ w, (strStartsWith s "[" && strEndsWith s "]") = true →
        literalEval s = some w → getattr obj' c = some w)) :=
  positional_loop_value columns row hmsg c columns hnodup hc obj obj' hattr hok

def c4Obj : Entity := [("synonyms", .vstr ""), ("cell_label", .vstr "kept")]

def c4Cols : List String := ["synonyms", "cell_label", "extra"]

def c4Row : Row := [some "[1, 2]", some "", some "zz"]

theorem positional_value_assignment_witness :
    getattr (extractOk (auto_fill_object_from_row c4Obj c4Cols c4Row)) "synonyms" =
      some (.vlist [.vint 1, .vint 2]) :=
  ((positional_value_assignment c4Obj
      (extractOk (auto_fill_object_from_row c4Obj c4Cols c4Row)) c4Cols c4Row
      "synonyms" (by decide) (Or.inl (by decide)) rfl (by decide) rfl).2
    "[1, 2]" rfl (by decide)).2 (.vlist [.vint 1, .vint 2]) rfl rfl

end TDT
